import Mathlib

/-!
Verification of the TUSH/thrash shell core against its specification.

Each C function that a claim touches is embedded shallowly as a Lean
definition over `List Char` strings; machine details that cannot change the
claims (heap allocation, hash bucketing, file descriptors as kernel objects)
are modelled at the level of the values they compute.  Filesystem queries
(`stat`, `access`) and child reaping (`waitpid`) are parameters of the
embedding: the functions are translated faithfully over those oracles.
-/

namespace Thrash

/-- Shell strings are modelled as lists of characters (C strings without the
terminating NUL). -/
abbrev Str := List Char

/-- Shorthand turning a Lean string literal into the `List Char` model. -/
def chars (s : String) : Str := s.toList

/-- C `isspace` in the C locale: space, tab, newline, vertical tab, form
feed, carriage return. -/
def c_isspace (c : Char) : Bool :=
  c = ' ' || c = '\t' || c = '\n' || c = '\x0b' || c = '\x0c' || c = '\r'

/-- Character class of the first character of a variable name:
`[A-Za-z_]` (var.c, executor.c). -/
def isNameStart (c : Char) : Bool := c.isAlpha || c = '_'

/-- Character class of the later characters of a variable name:
`[A-Za-z0-9_]`. -/
def isNameChar (c : Char) : Bool := c.isAlphanum || c = '_'

/-! ## exec_child: classification of an execve failure (executor.c 597-618)

After `execve` fails, `exec_child` inspects `errno`:
`ENOEXEC` exits 126, `EACCES` exits 126, `ENOENT` exits 127, and every
other errno falls into the final `else`, which exits 126. -/

/-- The errno values relevant to an execve failure (plus representatives of
the "any other" class). -/
inductive Errno
  | eacces
  | enoexec
  | enoent
  | enotdir
  | eisdir
  | etxtbsy
  | e2big
  | enomem
  deriving Repr, DecidableEq

/-- The exit code the child passes to `_exit` after `execve` fails, as the
if/else chain at executor.c lines 605-618 computes it from `errno`. -/
def exec_fail_exit_code : Errno → Nat
  | .enoexec => 126
  | .eacces => 126
  | .enoent => 127
  | _ => 126

/-! ## search_path_alloc (path.c 84-122, identical copy in executor.c)

PATH is split at colons; an empty segment composes the candidate `./cmd`,
a non-empty segment composes `seg/cmd`.  The loop classifies each candidate
with `is_directory`, `is_regular`, `is_executable` (stat/access oracles)
and returns the first executable regular file; otherwise it remembers
non-executable-regular and directory sightings. -/

/-- Result codes of the PATH lookup (`enum path_lookup`). -/
inductive PathRes
  | foundExec (p : Str)
  | notFound
  | foundNoexec
  | foundDir
  deriving Repr, DecidableEq

/-- The filesystem oracle: `is_directory`, `is_regular` (both via `stat`)
and `is_executable` (via `access(X_OK)`), as black-box predicates on
paths. -/
structure FS where
  isDir : Str → Bool
  isReg : Str → Bool
  isExec : Str → Bool

/-- Splitting PATH at `:` exactly as the `strchr` loop does: maximal
colon-free runs, keeping empty segments (`"a:"` yields `["a", ""]`). -/
def splitColon : Str → List Str
  | [] => [[]]
  | c :: rest =>
    if c = ':' then [] :: splitColon rest
    else
      match splitColon rest with
      | seg :: segs => (c :: seg) :: segs
      | [] => [[c]]

/-- Candidate path composed for one PATH segment: `"./cmd"` for the empty
segment, `"seg/cmd"` otherwise (the two snprintf calls). -/
def candidate (cmd seg : Str) : Str :=
  if seg = [] then '.' :: '/' :: cmd else seg ++ '/' :: cmd

/-- The body of `search_path_alloc`'s segment loop, carrying the
`found_noexec` and `found_dir` flags. -/
def spLoop (fs : FS) (cmd : Str) : List Str → Bool → Bool → PathRes
  | [], fne, fd =>
    if fne then .foundNoexec else if fd then .foundDir else .notFound
  | seg :: rest, fne, fd =>
    let cand := candidate cmd seg
    if fs.isDir cand then spLoop fs cmd rest fne true
    else if fs.isReg cand then
      if fs.isExec cand then .foundExec cand
      else spLoop fs cmd rest true fd
    else spLoop fs cmd rest fne fd

/-- `search_path_alloc cmd` over the value of `PATH` (`none` models a NULL
`getenv("PATH")`; the empty string is also rejected up front). -/
def search_path_alloc (fs : FS) (cmd : Str) (path : Option Str) : PathRes :=
  match path with
  | none => .notFound
  | some p => if p = [] then .notFound else spLoop fs cmd (splitColon p) false false

/-- A candidate the loop accepts immediately: not a directory, a regular
file, executable. -/
def goodCand (fs : FS) (c : Str) : Bool := !fs.isDir c && fs.isReg c && fs.isExec c

/-- A candidate recorded as `found_noexec`: not a directory, a regular
file, not executable. -/
def noexCand (fs : FS) (c : Str) : Bool := !fs.isDir c && fs.isReg c && !fs.isExec c

/-- A candidate recorded as `found_dir`. -/
def dirCand (fs : FS) (c : Str) : Bool := fs.isDir c

/-- Shorthand for the loop's outcome on the remembered sighting flags. -/
def spTail (fne fd : Bool) : PathRes :=
  if fne then .foundNoexec else if fd then .foundDir else .notFound

/-- Characterization of the segment loop: the first good candidate wins;
otherwise a recorded non-executable sighting beats a recorded directory
sighting, and `notFound` needs neither. -/
theorem spLoop_characterization (fs : FS) (cmd : Str) :
    ∀ (segs : List Str) (fne fd : Bool),
      spLoop fs cmd segs fne fd =
        match segs.find? (fun seg => goodCand fs (candidate cmd seg)) with
        | some seg => .foundExec (candidate cmd seg)
        | none =>
          spTail (fne || segs.any (fun seg => noexCand fs (candidate cmd seg)))
            (fd || segs.any (fun seg => dirCand fs (candidate cmd seg))) := by
  intro segs
  induction segs with
  | nil =>
    intro fne fd
    simp [spLoop, spTail]
  | cons seg rest ih =>
    intro fne fd
    have hL : spLoop fs cmd (seg :: rest) fne fd =
        (if fs.isDir (candidate cmd seg) then spLoop fs cmd rest fne true
         else if fs.isReg (candidate cmd seg) then
           (if fs.isExec (candidate cmd seg) then .foundExec (candidate cmd seg)
            else spLoop fs cmd rest true fd)
         else spLoop fs cmd rest fne fd) := rfl
    rw [hL]
    cases hdir : fs.isDir (candidate cmd seg) with
    | true =>
      have hgood : goodCand fs (candidate cmd seg) = false := by
        simp [goodCand, hdir]
      rw [if_pos rfl, ih, List.find?_cons_of_neg _ (by simp [hgood]),
        List.any_cons, List.any_cons]
      have h1 : (noexCand fs (candidate cmd seg) ||
          rest.any (fun s => noexCand fs (candidate cmd s))) =
          rest.any (fun s => noexCand fs (candidate cmd s)) := by
        simp [noexCand, hdir]
      have h2 : (fd || (dirCand fs (candidate cmd seg) ||
          rest.any (fun s => dirCand fs (candidate cmd s)))) = true := by
        simp [dirCand, hdir]
      rw [h1, h2]
      rcases hf : rest.find? (fun s => goodCand fs (candidate cmd s)) with _ | c
      · simp [spTail]
      · rfl
    | false =>
      rw [if_neg (by simp)]
      cases hreg : fs.isReg (candidate cmd seg) with
      | true =>
        rw [if_pos rfl]
        cases hexe : fs.isExec (candidate cmd seg) with
        | true =>
          have hgood : goodCand fs (candidate cmd seg) = true := by
            simp [goodCand, hdir, hreg, hexe]
          rw [if_pos rfl, List.find?_cons_of_pos _ (by simp [hgood])]
        | false =>
          have hgood : goodCand fs (candidate cmd seg) = false := by
            simp [goodCand, hdir, hreg, hexe]
          rw [if_neg (by simp), ih, List.find?_cons_of_neg _ (by simp [hgood]),
            List.any_cons, List.any_cons]
          have h1 : (fne || (noexCand fs (candidate cmd seg) ||
              rest.any (fun s => noexCand fs (candidate cmd s)))) = true := by
            simp [noexCand, hdir, hreg, hexe]
          have h2 : (dirCand fs (candidate cmd seg) ||
              rest.any (fun s => dirCand fs (candidate cmd s))) =
              rest.any (fun s => dirCand fs (candidate cmd s)) := by
            simp [dirCand, hdir]
          rw [h1, h2]
          rcases hf : rest.find? (fun s => goodCand fs (candidate cmd s)) with _ | c
          · simp [spTail]
          · rfl
      | false =>
        rw [if_neg (by simp)]
        have hgood : goodCand fs (candidate cmd seg) = false := by
          simp [goodCand, hdir, hreg]
        rw [ih, List.find?_cons_of_neg _ (by simp [hgood]),
          List.any_cons, List.any_cons]
        have h1 : (noexCand fs (candidate cmd seg) ||
            rest.any (fun s => noexCand fs (candidate cmd s))) =
            rest.any (fun s => noexCand fs (candidate cmd s)) := by
          simp [noexCand, hdir, hreg]
        have h2 : (dirCand fs (candidate cmd seg) ||
            rest.any (fun s => dirCand fs (candidate cmd s))) =
            rest.any (fun s => dirCand fs (candidate cmd s)) := by
          simp [dirCand, hdir]
        rw [h1, h2]

/-- Claim C3: over a non-empty PATH, (i) if some segment's candidate is an
executable regular file, the lookup returns the first such segment's
composed path; (ii) with no executable candidate, a non-executable regular
sighting forces `foundNoexec` (it wins over any directory sighting);
(iii) `notFound` is returned only when neither a non-executable regular
file nor a directory was sighted; and (iv) the empty segment composes
`./cmd`. -/
theorem search_path_alloc_spec (fs : FS) (cmd p : Str) (hp : p ≠ []) :
    (∀ seg, (splitColon p).find? (fun s => goodCand fs (candidate cmd s)) = some seg →
        search_path_alloc fs cmd (some p) = .foundExec (candidate cmd seg))
    ∧ ((splitColon p).find? (fun s => goodCand fs (candidate cmd s)) = none →
        (splitColon p).any (fun s => noexCand fs (candidate cmd s)) = true →
        search_path_alloc fs cmd (some p) = .foundNoexec)
    ∧ (search_path_alloc fs cmd (some p) = .notFound →
        (splitColon p).any (fun s => noexCand fs (candidate cmd s)) = false
        ∧ (splitColon p).any (fun s => dirCand fs (candidate cmd s)) = false)
    ∧ candidate cmd [] = '.' :: '/' :: cmd := by
  have hchar := spLoop_characterization fs cmd (splitColon p) false false
  have hsearch : search_path_alloc fs cmd (some p) =
      spLoop fs cmd (splitColon p) false false := by
    simp [search_path_alloc, hp]
  refine ⟨?_, ?_, ?_, rfl⟩
  · intro seg hc
    rw [hsearch, hchar, hc]
  · intro hnone hany
    rw [hsearch, hchar, hnone]
    simp [spTail, hany]
  · intro hnf
    rw [hsearch, hchar] at hnf
    rcases hfind : (splitColon p).find? (fun s => goodCand fs (candidate cmd s)) with _ | c
    · rw [hfind] at hnf
      by_cases hany : (splitColon p).any (fun s => noexCand fs (candidate cmd s))
      · simp [spTail, hany] at hnf
      · by_cases hdir : (splitColon p).any (fun s => dirCand fs (candidate cmd s))
        · simp [spTail, hany, hdir] at hnf
        · exact ⟨by simpa using hany, by simpa using hdir⟩
    · rw [hfind] at hnf
      simp at hnf

/-- Concrete filesystem for the C3 witness: nothing is a directory, only
`b/x` is a regular file, nothing is executable. -/
def fsW : FS where
  isDir := fun _ => false
  isReg := fun q => q == chars "b/x"
  isExec := fun _ => false

/-- Witness for C3 at PATH `a:b`, command `x`: the only sighting is the
non-executable regular file `b/x`, so the lookup reports `foundNoexec`. -/
theorem search_path_alloc_spec_witness :
    search_path_alloc fsW (chars "x") (some (chars "a:b")) = .foundNoexec := by
  exact (search_path_alloc_spec fsW (chars "x") (chars "a:b") (by decide)).2.1
    (by decide) (by decide)

/-- Sanity example (not a claim theorem): the first executable wins. -/
example :
    search_path_alloc
      ⟨fun _ => false, fun q => q == chars "a/x" || q == chars "b/x", fun _ => true⟩
      (chars "x") (some (chars "a:b")) = .foundExec (chars "a/x") := by decide

/-! ## expand_variables (executor.c 67-105)

The expansion the driver loop in main.c actually applies to each input
line: a plain scan that rewrites every occurrence of the two characters
`$?` to the decimal last exit status and copies every other character
unchanged.  (The `strstr` pre-check in the C code only short-circuits the
no-occurrence case and does not change the result.) -/

/-- Decimal rendering of the last exit status, as `snprintf("%d")`
produces it. -/
def decStr (e : Int) : Str := (toString e).toList

/-- `expand_variables(input, last_exit)` from executor.c: substitute each
`$?`; no escape handling of any kind. -/
def expand_variables (lastExit : Int) : Str → Str
  | '$' :: '?' :: rest => decStr lastExit ++ expand_variables lastExit rest
  | c :: rest => c :: expand_variables lastExit rest
  | [] => []

/-! ## expand_variables_ex (var.c 447-558, identical copy in executor.c)

The richer expander: `\$` emits a literal `$`, `$?` substitutes the last
exit status, `${NAME}` and `$NAME` substitute variable values (empty when
unset), `${` without a closing brace emits `${` and rescans the rest, and
any other `$` is emitted literally.  Variable lookup (`vart_get` plus the
`v->value` guard) is a parameter `vars : Str → Option Str`; names longer
than 255 characters are truncated before lookup, as the fixed `name[256]`
buffer forces. -/

/-- Value substituted for a variable name: the table's value, or empty
when the name is absent. -/
def varValue (vars : Str → Option Str) (name : Str) : Str :=
  (vars name).getD []

/-- Dropping a prefix cannot lengthen a list (used for termination of the
scanners below). -/
theorem dropWhile_len_le (p : Char → Bool) :
    ∀ l : List Char, (l.dropWhile p).length ≤ l.length := by
  intro l
  induction l with
  | nil => simp [List.dropWhile]
  | cons a l ih =>
    rw [List.dropWhile_cons]
    split
    · exact Nat.le_succ_of_le ih
    · simp

/-- Negation of the closing-brace test, the scan condition of the
`${NAME}` case (`while (*scan && *scan != '}')`). -/
def notRBrace (c : Char) : Bool := c ≠ '}'

/-- `expand_variables_ex` over an exit-status string and a lookup
oracle. -/
def expand_variables_ex (exitStr : Str) (vars : Str → Option Str) : Str → Str
  | '\\' :: '$' :: rest => '$' :: expand_variables_ex exitStr vars rest
  | '$' :: '?' :: rest => exitStr ++ expand_variables_ex exitStr vars rest
  | '$' :: '{' :: rest =>
    if ('}' ∈ rest) then
      let nm := rest.takeWhile notRBrace
      let after := (rest.dropWhile notRBrace).tail
      if nm = [] then
        '$' :: '{' :: '}' :: expand_variables_ex exitStr vars after
      else
        varValue vars (nm.take 255) ++ expand_variables_ex exitStr vars after
    else
      '$' :: '{' :: expand_variables_ex exitStr vars rest
  | '$' :: c :: rest =>
    if isNameStart c then
      let nm := c :: rest.takeWhile isNameChar
      let after := rest.dropWhile isNameChar
      varValue vars (nm.take 255) ++ expand_variables_ex exitStr vars after
    else
      '$' :: expand_variables_ex exitStr vars (c :: rest)
  | ['$'] => ['$']
  | c :: rest => c :: expand_variables_ex exitStr vars rest
  | [] => []
  termination_by input => input.length
  decreasing_by
  all_goals simp_arith
  all_goals
    first
    | exact Nat.le_succ_of_le (Nat.le_succ_of_le (dropWhile_len_le _ _))
    | exact Nat.le_succ_of_le (dropWhile_len_le _ _)

/-- Counterexample to claim C5: the expansion step the driver loop applies
(`expand_variables`, main.c line 81) does substitute at a backslash-dollar
position.  On input `\$?` with last status 7 it produces `\7`: the `$?`
was replaced and the output holds no dollar sign at all, contradicting
"emits a single literal dollar sign ... and performs no substitution". -/
theorem expand_backslash_dollar_cex :
    expand_variables 7 (chars "\\$?") = chars "\\7"
    ∧ ('$' ∈ expand_variables 7 (chars "\\$?")) = False := by
  constructor
  · rfl
  · simp only [eq_iff_iff, iff_false]
    decide

/-- Claim C5 as amended: in `expand_variables` — the expansion actually
applied to input lines — a backslash before `$?` is copied through and the
`$?` is still replaced by the last exit status; the companion
`expand_variables_ex` (present in var.c and executor.c but not called on
the input line) does implement the claimed rule, emitting one literal
dollar for `\$`, consuming both characters and substituting nothing
there. -/
theorem expand_backslash_dollar_amended :
    (∀ (e : Int) (rest : Str),
        expand_variables e ('\\' :: '$' :: '?' :: rest) =
          '\\' :: (decStr e ++ expand_variables e rest))
    ∧ (∀ (exitStr : Str) (vars : Str → Option Str) (rest : Str),
        expand_variables_ex exitStr vars ('\\' :: '$' :: rest) =
          '$' :: expand_variables_ex exitStr vars rest) := by
  constructor
  · intro e rest
    rfl
  · intro exitStr vars rest
    simp [expand_variables_ex]

/-! ## Variable table (var.c)

The hash table stores name → (value, flags) with unique keys; bucketing
and the load-factor resize (`maybe_resize`) only redistribute nodes and
never change lookup results, so the table is embedded as an association
list with first-match lookup.  Flags are the `V_EXPORT` and `V_READONLY`
bits. -/

/-- The flag set of a variable: the `V_EXPORT` and `V_READONLY` bits. -/
structure VFlags where
  exported : Bool
  readonly : Bool
  deriving Repr, DecidableEq

/-- One table entry: value plus flags (the name is the key). -/
structure VEntry where
  value : Str
  flags : VFlags
  deriving Repr, DecidableEq

/-- The logical content of a `VarTable`. -/
abbrev VTable := List (Str × VEntry)

/-- `vart_get`: first entry whose name matches. -/
def vlookup : VTable → Str → Option VEntry
  | [], _ => none
  | (k, e) :: rest, n => if k = n then some e else vlookup rest n

/-- Replace the entry of an existing name (first match), keeping the rest. -/
def vupdate : VTable → Str → VEntry → VTable
  | [], _, _ => []
  | (k, e) :: rest, n, e2 => if k = n then (k, e2) :: rest else (k, e) :: vupdate rest n e2

/-- Unlink the first entry of a name (the `vart_unset` removal). -/
def vremove : VTable → Str → VTable
  | [], _ => []
  | (k, e) :: rest, n => if k = n then rest else (k, e) :: vremove rest n

/-- The identifier check of `vart_set`: `[A-Za-z_][A-Za-z0-9_]*`. -/
def legal_name : Str → Bool
  | [] => false
  | c :: rest => isNameStart c && rest.all isNameChar

/-- `v->flags |= set_flags`: OR-merge of flag bits. -/
def orFlags (a b : VFlags) : VFlags :=
  ⟨a.exported || b.exported, a.readonly || b.readonly⟩

/-- `vart_set(t, name, value, set_flags)`: `none` models a `false` return
(invalid name, or existing entry readonly), in which case the table is
untouched; otherwise the updated table.  An existing entry gets the new
value and the OR-merged flags; a new entry gets exactly `set_flags`. -/
def vart_set (t : VTable) (name value : Str) (fl : VFlags) : Option VTable :=
  if legal_name name = false then none
  else
    match vlookup t name with
    | some e =>
      if e.flags.readonly then none
      else some (vupdate t name ⟨value, orFlags e.flags fl⟩)
    | none => some (t ++ [(name, ⟨value, fl⟩)])

/-- `vart_unset`: `none` models a `false` return (name absent, or entry
readonly — the table is untouched); otherwise the table with the entry
unlinked. -/
def vart_unset (t : VTable) (name : Str) : Option VTable :=
  match vlookup t name with
  | none => none
  | some e => if e.flags.readonly then none else some (vremove t name)

/-- `vart_export`: absent names are created empty with the export flag via
`vart_set`; an existing entry merely gets its export bit set (readonly is
NOT checked — the C code ORs the bit directly). -/
def vart_export (t : VTable) (name : Str) : Option VTable :=
  match vlookup t name with
  | none => vart_set t name [] ⟨true, false⟩
  | some e => some (vupdate t name ⟨e.value, ⟨true, e.flags.readonly⟩⟩)

/-- `vart_unexport`: clears only the export bit of an existing entry;
`none` models the `false` return for an absent name. -/
def vart_unexport (t : VTable) (name : Str) : Option VTable :=
  match vlookup t name with
  | none => none
  | some e => some (vupdate t name ⟨e.value, ⟨false, e.flags.readonly⟩⟩)

/-- One operation of the variable-table API. -/
inductive VarOp
  | setv (name value : Str) (fl : VFlags)
  | unsetv (name : Str)
  | exportv (name : Str)
  | unexportv (name : Str)

/-- Run one operation, keeping the old table on a `false` return — exactly
what each C call site observes of the table. -/
def applyOp (t : VTable) : VarOp → VTable
  | .setv n v fl => (vart_set t n v fl).getD t
  | .unsetv n => (vart_unset t n).getD t
  | .exportv n => (vart_export t n).getD t
  | .unexportv n => (vart_unexport t n).getD t

/-- Run a sequence of operations left to right. -/
def applyOps (t : VTable) (ops : List VarOp) : VTable := ops.foldl applyOp t

/-- Updating one name leaves the lookup of a different name unchanged. -/
theorem vlookup_vupdate_ne (m n : Str) (e : VEntry) (hmn : m ≠ n) :
    ∀ t : VTable, vlookup (vupdate t m e) n = vlookup t n := by
  intro t
  induction t with
  | nil => rfl
  | cons he rest ih =>
    obtain ⟨k, e0⟩ := he
    by_cases hk : k = m
    · subst hk
      simp [vupdate, vlookup, hmn]
    · simp only [vupdate, if_neg hk]
      by_cases hn : k = n
      · simp [vlookup, hn]
      · simp [vlookup, hn, ih]

/-- Updating a present name makes its lookup return the new entry. -/
theorem vlookup_vupdate_self (m : Str) (e : VEntry) :
    ∀ t : VTable, vlookup t m ≠ none → vlookup (vupdate t m e) m = some e := by
  intro t
  induction t with
  | nil => intro h; exact absurd rfl h
  | cons he rest ih =>
    obtain ⟨k, e0⟩ := he
    intro h
    by_cases hk : k = m
    · simp [vupdate, vlookup, hk]
    · simp only [vupdate, if_neg hk, vlookup]
      exact ih (by simpa [vlookup, hk] using h)

/-- Removing one name leaves the lookup of a different name unchanged. -/
theorem vlookup_vremove_ne (m n : Str) (hmn : m ≠ n) :
    ∀ t : VTable, vlookup (vremove t m) n = vlookup t n := by
  intro t
  induction t with
  | nil => rfl
  | cons he rest ih =>
    obtain ⟨k, e0⟩ := he
    by_cases hk : k = m
    · subst hk
      simp [vremove, vlookup, hmn]
    · simp only [vremove, if_neg hk]
      by_cases hn : k = n
      · simp [vlookup, hn]
      · simp [vlookup, hn, ih]

/-- A lookup that succeeds still succeeds with the same entry after
appending entries on the right (new nodes never shadow existing ones). -/
theorem vlookup_append_of_some (n : Str) (e : VEntry) :
    ∀ (t l : VTable), vlookup t n = some e → vlookup (t ++ l) n = some e := by
  intro t
  induction t with
  | nil => intro l h; exact absurd h (by simp [vlookup])
  | cons he rest ih =>
    obtain ⟨k, e0⟩ := he
    intro l h
    by_cases hk : k = n
    · simp only [vlookup, if_pos hk] at h
      simp [vlookup, hk, h]
    · simp only [vlookup, if_neg hk] at h
      simpa [vlookup, hk] using ih l h

/-- Readonly preservation across one operation: a readonly entry keeps its
value and its readonly bit, and stays present, whatever the operation;
only its export bit may change. -/
theorem applyOp_readonly (op : VarOp) (t : VTable) (n : Str) (v : Str) (ex : Bool)
    (h : vlookup t n = some ⟨v, ⟨ex, true⟩⟩) :
    ∃ ex2, vlookup (applyOp t op) n = some ⟨v, ⟨ex2, true⟩⟩ := by
  cases op with
  | setv m w fl =>
    by_cases hleg : legal_name m = false
    · exact ⟨ex, by simpa [applyOp, vart_set, hleg] using h⟩
    · by_cases hmn : m = n
      · subst hmn
        refine ⟨ex, ?_⟩
        simp [applyOp, vart_set, hleg, h]
      · rcases hm : vlookup t m with _ | em
        · refine ⟨ex, ?_⟩
          simp only [applyOp, vart_set, hleg, if_false, hm]
          simpa using vlookup_append_of_some n _ t _ h
        · by_cases hro : em.flags.readonly
          · exact ⟨ex, by simpa [applyOp, vart_set, hleg, hm, hro] using h⟩
          · refine ⟨ex, ?_⟩
            simp only [applyOp, vart_set, hleg, if_false, hm, hro]
            simpa [Option.getD, vlookup_vupdate_ne m n _ hmn t] using h
  | unsetv m =>
    by_cases hmn : m = n
    · subst hmn
      refine ⟨ex, ?_⟩
      simp [applyOp, vart_unset, h]
    · rcases hm : vlookup t m with _ | em
      · exact ⟨ex, by simpa [applyOp, vart_unset, hm] using h⟩
      · by_cases hro : em.flags.readonly
        · exact ⟨ex, by simpa [applyOp, vart_unset, hm, hro] using h⟩
        · refine ⟨ex, ?_⟩
          simp only [applyOp, vart_unset, hm, hro, if_false, Option.getD_some]
          simpa [vlookup_vremove_ne m n hmn t] using h
  | exportv m =>
    by_cases hmn : m = n
    · subst hmn
      refine ⟨true, ?_⟩
      simp only [applyOp, vart_export, h, Option.getD_some]
      exact vlookup_vupdate_self m _ t (by simp [h])
    · rcases hm : vlookup t m with _ | em
      · by_cases hleg : legal_name m = false
        · exact ⟨ex, by simpa [applyOp, vart_export, hm, vart_set, hleg] using h⟩
        · refine ⟨ex, ?_⟩
          simp only [applyOp, vart_export, hm, vart_set, hleg, if_false, Option.getD_some]
          exact vlookup_append_of_some n _ t _ h
      · refine ⟨ex, ?_⟩
        simp only [applyOp, vart_export, hm, Option.getD_some]
        simpa [vlookup_vupdate_ne m n _ hmn t] using h
  | unexportv m =>
    by_cases hmn : m = n
    · subst hmn
      refine ⟨false, ?_⟩
      simp only [applyOp, vart_unexport, h, Option.getD_some]
      exact vlookup_vupdate_self m _ t (by simp [h])
    · rcases hm : vlookup t m with _ | em
      · exact ⟨ex, by simpa [applyOp, vart_unexport, hm] using h⟩
      · refine ⟨ex, ?_⟩
        simp only [applyOp, vart_unexport, hm, Option.getD_some]
        simpa [vlookup_vupdate_ne m n _ hmn t] using h

/-- Claim C9: once a variable is readonly it stays readonly, its value
never changes and its entry is never removed, across any sequence of
`vart_set`, `vart_unset`, `vart_export`, `vart_unexport` operations; only
the export bit may vary (`vart_unexport` clears just that bit, and
`vart_set` only ORs new bits into existing flags). -/
theorem readonly_is_permanent (ops : List VarOp) (t : VTable) (n v : Str) (ex : Bool)
    (h : vlookup t n = some ⟨v, ⟨ex, true⟩⟩) :
    ∃ ex2, vlookup (applyOps t ops) n = some ⟨v, ⟨ex2, true⟩⟩ := by
  induction ops generalizing t ex with
  | nil => exact ⟨ex, h⟩
  | cons op rest ih =>
    obtain ⟨ex1, h1⟩ := applyOp_readonly op t n v ex h
    exact ih (applyOp t op) ex1 h1

/-- Witness for C9: the readonly entry `X = 1` survives a set, an unset,
an unexport and an export, with value `1` and the readonly bit intact. -/
theorem readonly_is_permanent_witness :
    ∃ ex2,
      vlookup
        (applyOps [(chars "X", ⟨chars "1", ⟨false, true⟩⟩)]
          [.setv (chars "X") (chars "2") ⟨false, false⟩,
           .unsetv (chars "X"),
           .unexportv (chars "X"),
           .exportv (chars "X")])
        (chars "X") = some ⟨chars "1", ⟨ex2, true⟩⟩ :=
  readonly_is_permanent
    [.setv (chars "X") (chars "2") ⟨false, false⟩,
     .unsetv (chars "X"),
     .unexportv (chars "X"),
     .exportv (chars "X")]
    [(chars "X", ⟨chars "1", ⟨false, true⟩⟩)]
    (chars "X") (chars "1") false (by decide)

/-! ## is_var_assignment (var.c 394-405)

A token is an assignment when it holds `=`, the `=` is not the first
character, and everything before the `=` is a legal identifier. -/

/-- The scan condition before the `=`. -/
def notEq (c : Char) : Bool := c ≠ '='

/-- `is_var_assignment(s)`. -/
def is_var_assignment : Str → Bool
  | [] => false
  | c :: rest =>
    if ('=' ∈ (c :: rest)) = false then false
    else if c = '=' then false
    else isNameStart c && (rest.takeWhile notEq).all isNameChar

/-- Name part of an assignment token: everything before the first `=`
(`strndup(s, eq - s)`). -/
def assignName (s : Str) : Str := s.takeWhile notEq

/-- Value part of an assignment token: everything after the first `=`
(`strdup(eq + 1)`). -/
def assignValue (s : Str) : Str := (s.dropWhile notEq).tail

/-! ## parse_pipeline (executor.c 397-460)

The per-segment tokenizer used by `process_input_segments`: splits on
unquoted pipes into commands and unquoted whitespace into words, with
single quotes, double quotes and backslash escapes.  (The fixed
`MAX_CMDS`/`MAX_ARGS`/1024-byte buffers of this copy carry no bounds
checks at all; the model is at the level of the values written.) -/

/-- One command's argv. -/
abbrev Argv := List Str

/-- A parsed pipeline: the argv of each stage, left to right. -/
abbrev Pipeline := List Argv

/-- Flush the pending token into argv (`if (buff_index > 0) ...`). -/
def ppFlush (argv : Argv) (buff : Str) : Argv :=
  if buff = [] then argv else argv ++ [buff]

/-- The scanning loop of `parse_pipeline`.  The escape test
`c == '\\' && p[1]` comes first in the C code and consumes two characters;
a trailing lone backslash falls through to the default append case. -/
def ppLoop : Str → Str → Bool → Bool → Argv → Pipeline → Pipeline
  | [], buff, _, _, argv, cmds => cmds ++ [ppFlush argv buff]
  | '\\' :: c2 :: rest, buff, inS, inD, argv, cmds =>
    ppLoop rest (buff ++ [c2]) inS inD argv cmds
  | c :: rest, buff, inS, inD, argv, cmds =>
    if c = '\'' ∧ inD = false then
      ppLoop rest buff (!inS) inD argv cmds
    else if c = '"' ∧ inS = false then
      ppLoop rest buff inS (!inD) argv cmds
    else if c = '|' ∧ inS = false ∧ inD = false then
      ppLoop rest [] inS inD [] (cmds ++ [ppFlush argv buff])
    else if c_isspace c ∧ inS = false ∧ inD = false then
      ppLoop rest [] inS inD (ppFlush argv buff) cmds
    else
      ppLoop rest (buff ++ [c]) inS inD argv cmds

/-- `parse_pipeline(input)`: always returns at least one command (possibly
with an empty argv). -/
def parse_pipeline (input : Str) : Pipeline :=
  ppLoop input [] false false [] []

/-! ## process_input_segments (executor.c 935-1022): one segment

The per-segment dispatch on an already-parsed pipeline.  The shell state
carries the `running` flag, `last_status` and the variable table; the
pipeline launcher is an oracle `launch` yielding the status
`launch_pipeline` would return; diagnostics are recorded as tags for the
`fprintf(stderr, ...)` sites.  `SIGTSTP` is 20 (Linux), so the stopped-job
branch tests `status == 128 + 20`. -/

/-- The shell state fields the dispatch reads and writes. -/
structure ShellSt where
  running : Bool
  last_status : Nat
  vars : VTable
  deriving Repr, DecidableEq

/-- Tags for the stderr diagnostics the dispatch can emit. -/
inductive Diag
  | unsetInPipeline
  | unsetMissingName
  | unsetFailed (name : Str)
  | stoppedJob
  | exitInPipeline
  deriving Repr, DecidableEq

/-- Outcome of processing one segment: the new state, the diagnostics
emitted, the pipelines handed to `launch_pipeline`, and whether the loop
`break`s (the `exit` path); or the undefined-behavior marker for the
`strcmp(NULL, "unset")` call reached when the first stage's argv is
empty. -/
inductive SegOutcome
  | ok (st : ShellSt) (diags : List Diag) (launched : List Pipeline) (brk : Bool)
  | nullDeref
  deriving Repr, DecidableEq

/-- The `unset` argument loop: each name is passed to `vart_unset`; a
`false` return emits a diagnostic (the `last_status = 1` it also sets is
overwritten by the unconditional `shell->last_status = 0` after the
loop). -/
def unsetArgs (t : VTable) (args : List Str) : VTable × List Diag :=
  args.foldl
    (fun acc nm =>
      match vart_unset acc.1 nm with
      | some t2 => (t2, acc.2)
      | none => (acc.1, acc.2 ++ [.unsetFailed nm]))
    (t, [])

/-- Processing of one parsed segment by `process_input_segments`. -/
def processSegment (launch : Pipeline → Nat) (st : ShellSt) (cmds : Pipeline) :
    SegOutcome :=
  match cmds with
  | [] => .ok st [] [] false
  | first :: _ =>
    match first with
    | [] =>
      -- cmds[0][0] is NULL: the exit guard short-circuits, then
      -- strcmp(cmds[0][0], "unset") dereferences NULL (executor.c:959).
      .nullDeref
    | a0 :: args =>
      if a0 = chars "exit" then
        .ok { st with running := false } [] [] true
      else if a0 = chars "unset" then
        if 1 < cmds.length then
          .ok { st with last_status := 1 } [.unsetInPipeline] [] false
        else if args = [] then
          .ok { st with last_status := 1 } [.unsetMissingName] [] false
        else
          let r := unsetArgs st.vars args
          .ok { st with vars := r.1, last_status := 0 } r.2 [] false
      else if is_var_assignment a0 then
        .ok { st with
              vars := (vart_set st.vars (assignName a0) (assignValue a0)
                ⟨false, false⟩).getD st.vars } [] [] false
      else
        let status := launch cmds
        .ok { st with last_status := status }
          (if status = 128 + 20 then [.stoppedJob] else []) [cmds] false

/-! ## handle_builtin_in_pipeline (executor.c 677-697)

Called by `launch_pipeline` on each stage of a pipeline before forking.
Result codes: 0 = not a builtin (fork), 1 = handled, skip the fork,
2 = handled and the shell should exit.  The triple returned here is
(result code, new running flag, diagnostics). -/

/-- `handle_builtin_in_pipeline(shell, argv, num_cmds)`. -/
def handle_builtin_in_pipeline (running : Bool) (argv : Argv) (num_cmds : Nat) :
    Nat × Bool × List Diag :=
  match argv with
  | [] => (0, running, [])
  | a0 :: _ =>
    if a0 = chars "cd" then (1, running, [])
    else if a0 = chars "exit" then
      if num_cmds = 1 then (2, false, [])
      else (1, running, [.exitInPipeline])
    else (0, running, [])

/-- A fixed launcher oracle and start state for the concrete theorems. -/
def launch0 : Pipeline → Nat := fun _ => 0

/-- Start state for the concrete theorems: running, last status 0, empty
variable table. -/
def st0 : ShellSt := ⟨true, 0, []⟩

/-- Counterexample to claim C4: on the two-stage pipeline `exit | cat` —
`exit` as the first stage — `process_input_segments` emits no diagnostic,
clears the running flag and breaks out of its loop, so the shell
terminates rather than remaining in its loop. -/
theorem exit_first_stage_cex :
    processSegment launch0 st0 [[chars "exit"], [chars "cat"]] =
      .ok { running := false, last_status := 0, vars := [] } [] [] true := by
  decide

/-- Claim C4 as amended: only a stage other than the first triggers the
diagnostic — `handle_builtin_in_pipeline` on an `exit` stage of a pipeline
with 2 or more commands emits the diagnostic, keeps the running flag and
returns 1 (the stage is skipped without forking); but `exit` as the first
word of the first stage makes `process_input_segments` clear the running
flag and break immediately, with no diagnostic, whatever the pipeline
length. -/
theorem exit_in_pipeline_amended :
    (∀ (running : Bool) (args : List Str) (n : Nat), 2 ≤ n →
        handle_builtin_in_pipeline running (chars "exit" :: args) n =
          (1, running, [.exitInPipeline]))
    ∧ (∀ (launch : Pipeline → Nat) (st : ShellSt) (args : List Str) (rest : Pipeline),
        processSegment launch st ((chars "exit" :: args) :: rest) =
          .ok { st with running := false } [] [] true) := by
  constructor
  · intro running args n hn
    have hne : (chars "exit" = chars "cd") = False := by decide
    have hn1 : (n = 1) = False := by simp; omega
    simp [handle_builtin_in_pipeline, hne, hn1]
  · intro launch st args rest
    simp [processSegment]

/-- Witness for the amended C4 at a concrete input: `cat | exit` (length
2, `exit` not first) gets the diagnostic and keeps `running`. -/
theorem exit_in_pipeline_amended_witness :
    handle_builtin_in_pipeline true [chars "exit"] 2 = (1, true, [.exitInPipeline]) :=
  exit_in_pipeline_amended.1 true [] 2 (by decide)

/-- Counterexample to claim C6: on `FOO=bar | echo hi` the assignment is
applied and the remaining stage is not launched, but the diagnostic the
claim requires is NOT emitted (the diagnostic list is empty). -/
theorem assignment_pipeline_cex :
    processSegment launch0 st0 [[chars "FOO=bar"], [chars "echo", chars "hi"]] =
      .ok { running := true, last_status := 0,
            vars := [(chars "FOO", ⟨chars "bar", ⟨false, false⟩⟩)] } [] [] false := by
  decide

/-- Claim C6 as amended: a segment whose first token is an assignment
applies `vart_set` with empty flags and skips every pipeline stage (no
launch), but silently — no diagnostic is emitted and the last exit status
is untouched. -/
theorem assignment_pipeline_amended (launch : Pipeline → Nat) (st : ShellSt)
    (a0 : Str) (args : List Str) (rest : Pipeline)
    (hassign : is_var_assignment a0 = true) :
    processSegment launch st ((a0 :: args) :: rest) =
      .ok { st with
            vars := (vart_set st.vars (assignName a0) (assignValue a0)
              ⟨false, false⟩).getD st.vars } [] [] false := by
  have hexit : a0 ≠ chars "exit" := by
    intro hc; rw [hc] at hassign; exact absurd hassign (by decide)
  have hunset : a0 ≠ chars "unset" := by
    intro hc; rw [hc] at hassign; exact absurd hassign (by decide)
  simp [processSegment, hexit, hunset, hassign]

/-- Witness for the amended C6 at `A=1 | echo`. -/
theorem assignment_pipeline_amended_witness :
    processSegment launch0 st0 [[chars "A=1"], [chars "echo"]] =
      .ok { st0 with
            vars := (vart_set st0.vars (assignName (chars "A=1"))
              (assignValue (chars "A=1")) ⟨false, false⟩).getD st0.vars } [] [] false :=
  assignment_pipeline_amended launch0 st0 (chars "A=1") [] [[chars "echo"]] (by decide)

/-- Counterexample to claim C7: `unset NOPE` on an empty table leaves the
table unchanged and records last status 0, but a failure diagnostic IS
emitted, contradicting "no failure diagnostic is emitted". -/
theorem unset_unknown_cex :
    processSegment launch0 st0 [[chars "unset", chars "NOPE"]] =
      .ok { running := true, last_status := 0, vars := [] }
        [.unsetFailed (chars "NOPE")] [] false := by
  decide

/-- Claim C7 as amended: `unset` of a single absent name is a no-op on the
table, the shell keeps running, and the recorded last status is 0 (the
unconditional `last_status = 0` after the loop overwrites the failure
status) — but a `failed to unset` diagnostic is emitted for the name. -/
theorem unset_unknown_amended (launch : Pipeline → Nat) (st : ShellSt) (nm : Str)
    (hmiss : vlookup st.vars nm = none) :
    processSegment launch st [[chars "unset", nm]] =
      .ok { st with last_status := 0 } [.unsetFailed nm] [] false := by
  have h1 : ¬(chars "unset" = chars "exit") := by decide
  have h2 : ¬([nm] = ([] : List Str)) := by simp
  have hrun : unsetArgs st.vars [nm] = (st.vars, [.unsetFailed nm]) := by
    simp [unsetArgs, vart_unset, hmiss]
  simp [processSegment, h1, h2, hrun]

/-- Witness for the amended C7: `unset GONE` on a state with last status 7
and an empty table. -/
theorem unset_unknown_amended_witness :
    processSegment launch0 ⟨true, 7, []⟩ [[chars "unset", chars "GONE"]] =
      .ok { running := true, last_status := 0, vars := [] }
        [.unsetFailed (chars "GONE")] [] false :=
  unset_unknown_amended launch0 ⟨true, 7, []⟩ (chars "GONE") rfl

/-- Claim C8, what the code actually does: a whitespace-only segment
parses to a single command with an empty argv, and processing that
pipeline reaches the NULL dereference in `strcmp(cmds[0][0], "unset")`
(executor.c:959) instead of skipping the segment — undefined behavior,
not the claimed no-op. -/
theorem whitespace_segment_crashes :
    parse_pipeline (chars "   ") = [[]]
    ∧ processSegment launch0 st0 (parse_pipeline (chars "   ")) = .nullDeref := by
  constructor
  · decide
  · decide

/-- Claim C2, what the code actually does: the errno classification after
a failed execve maps `ENOEXEC` and `EACCES` to 126 and `ENOENT` to 127 as
claimed, but `ENOTDIR` falls into the final `else` and exits 126 — not
the 127 the claim (and the file's own header comment, executor.c line 16)
states. -/
theorem exec_fail_code_enotdir :
    exec_fail_exit_code .enotdir = 126
    ∧ exec_fail_exit_code .enoent = 127
    ∧ exec_fail_exit_code .eacces = 126
    ∧ exec_fail_exit_code .enoexec = 126
    ∧ exec_fail_exit_code .eisdir = 126 := by
  decide

/-! ## launch_pipeline, multi-stage wait loop (executor.c 736-931)

All process-level effects are parameters: `pids` is the array the fork
loop filled (a positive entry per successfully forked stage), `events` is
the sequence of `waitpid(-pgid, &status, WUNTRACED)` results, decoded into
exited / signaled / stopped, and `late` is the result of the final
`waitpid(last_pid, WNOHANG)` probe on the fallback path.  The embedding
reproduces the loop at lines 876-901 and the result computation at lines
906-925. -/

/-- A decoded wait status: `WIFEXITED`/`WEXITSTATUS`,
`WIFSIGNALED`/`WTERMSIG`, `WIFSTOPPED`/`WSTOPSIG`. -/
inductive WStat
  | exited (code : Nat)
  | signaled (sig : Nat)
  | stopped (sig : Nat)
  deriving Repr, DecidableEq

/-- `true` exactly on a stopped status. -/
def isStop : WStat → Bool
  | .stopped _ => true
  | _ => false

/-- The exit code the status-to-code chain extracts: exit code on normal
exit, 128 + signal on a signal death, and the `last_exit` fallback on the
(unreachable here) stopped case. -/
def wstatExit (lastExit : Nat) : WStat → Nat
  | .exited c => c
  | .signaled s => 128 + s
  | .stopped _ => lastExit

/-- Result of the wait loop: an early return with `128 + stop-signal`, or
completion with the running `last_exit` and the recorded status of the
last stage (when its pid was reaped). -/
inductive WaitRes
  | stop (code : Nat)
  | done (lastExit : Nat) (fin : Option WStat)
  deriving Repr, DecidableEq

/-- The `while (live > 0)` reap loop.  An empty event list with live
children models `ECHILD` (break); a stopped status returns immediately;
an exit or signal death decrements `live`, updates `last_exit`, and
records the status when the reaped pid is the last stage's. -/
def waitLoop (lastPid : Int) :
    List (Int × WStat) → Nat → Nat → Option WStat → WaitRes
  | _, 0, lastExit, fin => .done lastExit fin
  | [], _ + 1, lastExit, fin => .done lastExit fin
  | (w, s) :: rest, live + 1, _lastExit, fin =>
    match s with
    | .stopped g => .stop (128 + g)
    | .exited c =>
      waitLoop lastPid rest live c
        (if w = lastPid then some (.exited c) else fin)
    | .signaled g =>
      waitLoop lastPid rest live (128 + g)
        (if w = lastPid then some (.signaled g) else fin)

/-- `last_pid` recomputed after the fork loop: the last positive entry of
`pids` (−1 when none). -/
def lastForkedPid (pids : List Int) : Int :=
  pids.foldl (fun acc p => if 0 < p then p else acc) (-1)

/-- `forked`, the number of positive pid entries — the initial `live`. -/
def forkedCount (pids : List Int) : Nat :=
  (pids.filter (fun p => 0 < p)).length

/-- The status `launch_pipeline` returns for a multi-stage pipeline, from
the wait events: the stop shortcut, the last stage's recorded status, or
the `WNOHANG` / `last_exit` fallbacks. -/
def pipelineWaitResult (pids : List Int) (events : List (Int × WStat))
    (late : Option WStat) : Nat :=
  match waitLoop (lastForkedPid pids) events (forkedCount pids) 0 none with
  | .stop c => c
  | .done lastExit fin =>
    match fin with
    | some fs => wstatExit lastExit fs
    | none =>
      if 0 < lastForkedPid pids then
        match late with
        | some t => wstatExit lastExit t
        | none => lastExit
      else lastExit

/-- The update the loop applies to the recorded final status, as a fold
step. -/
def finUpd (lastPid : Int) (acc : Option WStat) (e : Int × WStat) : Option WStat :=
  if e.1 = lastPid then some e.2 else acc

/-- With as many events as live children and no stop among them, the loop
runs to completion and the recorded final status is the fold of `finUpd`
over the events. -/
theorem waitLoop_complete (lastPid : Int) :
    ∀ (events : List (Int × WStat)) (lastExit : Nat) (fin : Option WStat),
      (∀ e ∈ events, isStop e.2 = false) →
      ∃ le2, waitLoop lastPid events events.length lastExit fin =
        .done le2 (events.foldl (finUpd lastPid) fin) := by
  intro events
  induction events with
  | nil => intro lastExit fin _; exact ⟨lastExit, rfl⟩
  | cons e rest ih =>
    intro lastExit fin hns
    obtain ⟨w, s⟩ := e
    have hrest : ∀ e ∈ rest, isStop e.2 = false := fun e he => hns e (by simp [he])
    have hs : isStop s = false := hns (w, s) (by simp)
    cases s with
    | exited c =>
      obtain ⟨le2, h2⟩ := ih c (if w = lastPid then some (.exited c) else fin) hrest
      exact ⟨le2, by simpa [waitLoop, List.foldl_cons, finUpd] using h2⟩
    | signaled g =>
      obtain ⟨le2, h2⟩ := ih (128 + g) (if w = lastPid then some (.signaled g) else fin) hrest
      exact ⟨le2, by simpa [waitLoop, List.foldl_cons, finUpd] using h2⟩
    | stopped g => exact absurd hs (by simp [isStop])

/-- When the last pid never occurs among the events, the fold keeps the
accumulator. -/
theorem foldl_finUpd_of_not_mem (lastPid : Int) :
    ∀ (events : List (Int × WStat)) (fin : Option WStat),
      lastPid ∉ events.map Prod.fst →
      events.foldl (finUpd lastPid) fin = fin := by
  intro events
  induction events with
  | nil => intro fin _; rfl
  | cons e rest ih =>
    intro fin hnm
    obtain ⟨w, s⟩ := e
    have hw : w ≠ lastPid := fun hc => hnm (by simp [hc])
    have hrest : lastPid ∉ rest.map Prod.fst := fun hc => hnm (by simp [hc])
    simpa [List.foldl_cons, finUpd, hw] using ih fin hrest

/-- When the last pid occurs exactly once (no duplicate pids among the
events), the fold yields that occurrence's status. -/
theorem foldl_finUpd_of_mem (lastPid : Int) (s : WStat) :
    ∀ (events : List (Int × WStat)) (fin : Option WStat),
      (lastPid, s) ∈ events →
      (events.map Prod.fst).Nodup →
      events.foldl (finUpd lastPid) fin = some s := by
  intro events
  induction events with
  | nil => intro fin h _; exact absurd h (by simp)
  | cons e rest ih =>
    intro fin hmem hnd
    obtain ⟨w, t⟩ := e
    have hnd' : (w :: rest.map Prod.fst).Nodup := by simpa using hnd
    have hnd1 : w ∉ rest.map Prod.fst := (List.nodup_cons.mp hnd').1
    have hnd2 : (rest.map Prod.fst).Nodup := (List.nodup_cons.mp hnd').2
    rcases List.mem_cons.mp hmem with hhead | htail
    · have hw : w = lastPid := (congrArg Prod.fst hhead).symm
      have ht : t = s := (congrArg Prod.snd hhead).symm
      subst hw; subst ht
      rw [List.foldl_cons]
      have : finUpd w fin (w, t) = some t := by simp [finUpd]
      rw [this]
      exact foldl_finUpd_of_not_mem w rest (some t) hnd1
    · have hw : w ≠ lastPid := by
        intro hc
        subst hc
        exact hnd1 (by simpa using List.mem_map_of_mem Prod.fst htail)
      rw [List.foldl_cons]
      have : finUpd lastPid fin (w, t) = fin := by simp [finUpd, hw]
      rw [this]
      exact ih fin htail hnd2

/-- With every entry positive, `forkedCount` is the full length. -/
theorem forkedCount_eq_length (pids : List Int) (hpos : ∀ p ∈ pids, 0 < p) :
    forkedCount pids = pids.length := by
  unfold forkedCount
  rw [List.filter_eq_self.mpr (fun p hp => by simpa using hpos p hp)]

/-- The fold of the fork loop with all-positive entries lands on the last
element, whatever the accumulator. -/
theorem foldl_lastPid_eq_getLastD :
    ∀ (pids : List Int) (acc : Int), (∀ p ∈ pids, 0 < p) → pids ≠ [] →
      pids.foldl (fun acc p => if 0 < p then p else acc) acc = pids.getLastD acc := by
  intro pids
  induction pids with
  | nil => intro acc _ h; exact absurd rfl h
  | cons x rest ih =>
    intro acc hpos _
    have hx : 0 < x := hpos x (by simp)
    cases rest with
    | nil => simp [hx]
    | cons y ys =>
      have hrest : ∀ p ∈ y :: ys, 0 < p := fun p hp => hpos p (by simp [hp])
      rw [List.foldl_cons, if_pos hx, ih x hrest (by simp)]
      rfl

/-- With every entry positive, the fork loop's `last_pid` is the last
element of `pids`. -/
theorem lastForkedPid_eq_getLast (pids : List Int) (hpos : ∀ p ∈ pids, 0 < p) :
    pids ≠ [] → lastForkedPid pids = pids.getLastD (-1) := by
  intro hne
  unfold lastForkedPid
  rw [foldl_lastPid_eq_getLastD pids (-1) hpos hne]

/-- Claim C1: in a multi-stage pipeline (N ≥ 2) in which every stage
forked (all pids positive, distinct), every forked child is reaped exactly
once (the reaped pids are a permutation of `pids`) and no stage stops,
`launch_pipeline` returns the status of the last (rightmost) stage `s` —
its exit code, or 128 + signal if it died by a signal — regardless of the
statuses of all earlier stages. -/
theorem pipeline_status_is_last_stage
    (pids : List Int) (events : List (Int × WStat)) (late : Option WStat) (s : WStat)
    (hN : 2 ≤ pids.length)
    (hpos : ∀ p ∈ pids, 0 < p)
    (hnd : pids.Nodup)
    (hperm : (events.map Prod.fst).Perm pids)
    (hnostop : ∀ e ∈ events, isStop e.2 = false)
    (hmem : (pids.getLastD (-1), s) ∈ events) :
    pipelineWaitResult pids events late = wstatExit 0 s := by
  have hne : pids ≠ [] := by
    intro hc; rw [hc] at hN; exact absurd hN (by decide)
  have hlast : lastForkedPid pids = pids.getLastD (-1) :=
    lastForkedPid_eq_getLast pids hpos hne
  have hcount : forkedCount pids = events.length := by
    rw [forkedCount_eq_length pids hpos, ← hperm.length_eq, List.length_map]
  have hndE : (events.map Prod.fst).Nodup := (hperm.nodup_iff).mpr hnd
  obtain ⟨le2, hloop⟩ :=
    waitLoop_complete (pids.getLastD (-1)) events 0 none hnostop
  have hfold :
      events.foldl (finUpd (pids.getLastD (-1))) none = some s :=
    foldl_finUpd_of_mem (pids.getLastD (-1)) s events none hmem hndE
  have hs : isStop s = false := hnostop _ hmem
  unfold pipelineWaitResult
  rw [hlast, hcount, hloop, hfold]
  cases s with
  | exited c => rfl
  | signaled g => rfl
  | stopped g => exact absurd hs (by simp [isStop])

/-- Witness for C1: pids 3 and 5; the last stage (pid 5) is killed by
signal 9 and is reaped first, the first stage exits 0 afterwards; the
pipeline status is 128 + 9 = 137. -/
theorem pipeline_status_is_last_stage_witness :
    pipelineWaitResult [3, 5] [(5, .signaled 9), (3, .exited 0)] none =
      wstatExit 0 (.signaled 9) :=
  pipeline_status_is_last_stage [3, 5] [(5, .signaled 9), (3, .exited 0)] none
    (.signaled 9) (by decide) (by decide) (by decide) (by decide) (by decide)
    (by decide)

/-! ## parse_commands (parser.c 11-213)

The Command-producing parser with its fixed limits `MAX_CMDS = 16`,
`MAX_ARGS = 64` (words are stored only while `arg_index < 63`) and the
1024-byte `token_buff` (characters are appended only while
`buff_index < 1023`).  The recursion is driven by a fuel counter that the
entry point sets to `input.length + 1`; every step consumes at least one
input character, so the fuel never runs out (`pcLoop_fuel_congr`
below). -/

/-- The `Command` record, at the fields parse_commands writes (`argc` is
`argv`'s length; fds are the numeric values `atoi` produces). -/
structure Cmd where
  argv : List Str
  input_file : Option Str
  output_file : Option Str
  append_file : Option Str
  input_fd : Nat
  output_fd : Nat
  deriving Repr, DecidableEq

/-- A freshly calloc'd `Command`. -/
def Cmd.init : Cmd := ⟨[], none, none, none, 0, 0⟩

/-- Append to `token_buff` only while `buff_index < sizeof(token_buff)-1`:
characters beyond 1023 are silently dropped. -/
def appendBuff (buff : Str) (c : Char) : Str :=
  if buff.length < 1023 then buff ++ [c] else buff

/-- Flush the pending token as an argv word, only while
`arg_index < MAX_ARGS - 1`: the 64th and later words are silently
dropped. -/
def flushWord (cur : Cmd) (buff : Str) : Cmd :=
  if buff = [] then cur
  else if cur.argv.length < 63 then { cur with argv := cur.argv ++ [buff] } else cur

/-- `atoi` on an all-digit token. -/
def digitsToNat (buff : Str) : Nat :=
  buff.foldl (fun a c => a * 10 + (c.toNat - '0'.toNat)) 0

/-- The filename scan after a redirection operator: consume while the
character is non-space or a quote is open, toggling quotes and appending
other characters to the (cleared) token buffer.  Returns the filename,
the final quote states and the remaining input. -/
def scanFilename : Str → Bool → Bool → Str → Str × Bool × Bool × Str
  | [], inS, inD, buff => (buff, inS, inD, [])
  | c :: rest, inS, inD, buff =>
    if c_isspace c ∧ inS = false ∧ inD = false then (buff, inS, inD, c :: rest)
    else if c = '\'' ∧ inD = false then scanFilename rest (!inS) inD buff
    else if c = '"' ∧ inS = false then scanFilename rest inS (!inD) buff
    else scanFilename rest inS inD (appendBuff buff c)

/-- `is_append`: the operator is `>` immediately followed by another
`>`. -/
def redirIsApp (c : Char) (rest : Str) : Bool :=
  decide (c = '>') && (match rest with | '>' :: _ => true | _ => false)

/-- `specified_fd`: an all-digit pending token is consumed as the target
fd. -/
def redirFdSpec (buff : Str) : Option Nat :=
  if buff ≠ [] ∧ buff.all Char.isDigit then some (digitsToNat buff) else none

/-- The command after the pending token was handled: a non-digit token is
flushed as an argv word, an all-digit (or empty) token leaves argv
alone. -/
def redirCur0 (cur : Cmd) (buff : Str) : Cmd :=
  if buff ≠ [] ∧ ¬ buff.all Char.isDigit then flushWord cur buff else cur

/-- The filename scan after the chevron(s): skip the second `>` of an
append, skip spaces, then scan with a cleared buffer. -/
def redirScan (c : Char) (rest : Str) (inS inD : Bool) : Str × Bool × Bool × Str :=
  scanFilename ((if redirIsApp c rest then rest.tail else rest).dropWhile c_isspace)
    inS inD []

/-- Assign the filename to the input / append / truncate slot, with the
specified or default target fd. -/
def redirTarget (c : Char) (isApp : Bool) (cur0 : Cmd) (fname : Str)
    (fdSpec : Option Nat) : Cmd :=
  if c = '<' then
    { cur0 with input_file := some fname, input_fd := fdSpec.getD 0 }
  else if isApp then
    { cur0 with append_file := some fname, output_fd := fdSpec.getD 1 }
  else
    { cur0 with output_file := some fname, output_fd := fdSpec.getD 1 }

/-- The whole redirection case of the loop (parser.c 103-170): detect
`>>`, consume an all-digit pending token as the target fd (otherwise
flush it as a word), skip the chevron(s) and following spaces, scan the
filename, and assign it to the input/output/append slot with the
specified or default fd.  Returns the remaining input, the quote states
after the filename scan, and the updated command. -/
def redirStep (c : Char) (rest buff : Str) (inS inD : Bool) (cur : Cmd) :
    Str × Bool × Bool × Cmd :=
  ((redirScan c rest inS inD).2.2.2,
   (redirScan c rest inS inD).2.1,
   (redirScan c rest inS inD).2.2.1,
   redirTarget c (redirIsApp c rest) (redirCur0 cur buff)
     (redirScan c rest inS inD).1 (redirFdSpec buff))

/-- The main scanning loop of `parse_commands`.  The `| 0` case is the
fuel guard, unreachable from `parse_commands`. -/
def pcLoop : Nat → Str → Str → Bool → Bool → Cmd → List Cmd → List Cmd
  | 0, _, _, _, _, _, cmds => cmds
  | _ + 1, [], buff, _, _, cur, cmds =>
    if cmds.length < 16 then cmds ++ [flushWord cur buff] else cmds
  | fuel + 1, c :: rest, buff, inS, inD, cur, cmds =>
    if c = '\\' ∧ rest ≠ [] then
      pcLoop fuel rest.tail (appendBuff buff (rest.headD c)) inS inD cur cmds
    else if c = '\'' ∧ inD = false then
      pcLoop fuel rest buff (!inS) inD cur cmds
    else if c = '"' ∧ inS = false then
      pcLoop fuel rest buff inS (!inD) cur cmds
    else if c = '|' ∧ inS = false ∧ inD = false then
      if cmds.length < 16 then
        pcLoop fuel rest [] inS inD Cmd.init (cmds ++ [flushWord cur buff])
      else cmds
    else if (c = '>' ∨ c = '<') ∧ inS = false ∧ inD = false then
      pcLoop fuel (redirStep c rest buff inS inD cur).1 []
        (redirStep c rest buff inS inD cur).2.1
        (redirStep c rest buff inS inD cur).2.2.1
        (redirStep c rest buff inS inD cur).2.2.2 cmds
    else if c_isspace c ∧ inS = false ∧ inD = false then
      pcLoop fuel rest [] inS inD (flushWord cur buff) cmds
    else
      pcLoop fuel rest (appendBuff buff c) inS inD cur cmds

/-- `parse_commands(input)`. -/
def parse_commands (input : Str) : List Cmd :=
  pcLoop (input.length + 1) input [] false false Cmd.init []

/-- The filename scan never consumes more than the input. -/
theorem scanFilename_rem_le :
    ∀ (s : Str) (inS inD : Bool) (buff : Str),
      (scanFilename s inS inD buff).2.2.2.length ≤ s.length := by
  intro s
  induction s with
  | nil => intro inS inD buff; simp [scanFilename]
  | cons c rest ih =>
    intro inS inD buff
    simp only [scanFilename]
    split_ifs
    · simp
    · exact Nat.le_succ_of_le (ih _ _ _)
    · exact Nat.le_succ_of_le (ih _ _ _)
    · exact Nat.le_succ_of_le (ih _ _ _)

/-- The tail never lengthens a list. -/
theorem tail_len_le (l : Str) : l.tail.length ≤ l.length := by
  cases l <;> simp

/-- `appendBuff` keeps the token within the 1023-byte limit. -/
theorem appendBuff_le (buff : Str) (c : Char) (h : buff.length ≤ 1023) :
    (appendBuff buff c).length ≤ 1023 := by
  unfold appendBuff
  split_ifs with hlt
  · simp only [List.length_append, List.length_cons, List.length_nil]
    omega
  · exact h

/-- The filename the scan produces stays within the 1023-byte limit. -/
theorem scanFilename_name_le :
    ∀ (s : Str) (inS inD : Bool) (buff : Str), buff.length ≤ 1023 →
      (scanFilename s inS inD buff).1.length ≤ 1023 := by
  intro s
  induction s with
  | nil => intro inS inD buff h; simpa [scanFilename] using h
  | cons c rest ih =>
    intro inS inD buff h
    simp only [scanFilename]
    split_ifs
    · simpa using h
    · exact ih _ _ _ h
    · exact ih _ _ _ h
    · exact ih _ _ _ (appendBuff_le buff c h)

/-- The per-command limits claim C10 states: at most 63 argv words, each
at most 1023 bytes, and every redirection filename at most 1023 bytes. -/
def CmdOk (x : Cmd) : Prop :=
  x.argv.length ≤ 63
  ∧ (∀ w ∈ x.argv, w.length ≤ 1023)
  ∧ (∀ f, x.input_file = some f → f.length ≤ 1023)
  ∧ (∀ f, x.output_file = some f → f.length ≤ 1023)
  ∧ (∀ f, x.append_file = some f → f.length ≤ 1023)

/-- The whole-result limits: at most 16 commands, each within `CmdOk`. -/
def PCOk (l : List Cmd) : Prop :=
  l.length ≤ 16 ∧ ∀ x ∈ l, CmdOk x

/-- A fresh command satisfies the limits. -/
theorem cmdOk_init : CmdOk Cmd.init := by
  refine ⟨by simp [Cmd.init], ?_, ?_, ?_, ?_⟩ <;> simp [Cmd.init]

/-- Flushing a bounded token preserves the limits. -/
theorem cmdOk_flushWord (cur : Cmd) (buff : Str) (hc : CmdOk cur)
    (hb : buff.length ≤ 1023) : CmdOk (flushWord cur buff) := by
  obtain ⟨h1, h2, h3, h4, h5⟩ := hc
  unfold flushWord
  split_ifs with he hlt
  · exact ⟨h1, h2, h3, h4, h5⟩
  · refine ⟨?_, ?_, h3, h4, h5⟩
    · simp only [List.length_append, List.length_cons, List.length_nil]
      omega
    · intro w hw
      rcases List.mem_append.mp hw with h | h
      · exact h2 w h
      · rw [List.mem_singleton.mp h]; exact hb
  · exact ⟨h1, h2, h3, h4, h5⟩

/-- Appending one in-limit command to an in-limit list of fewer than 16
stays in limits. -/
theorem pcOk_append (cmds : List Cmd) (x : Cmd) (h : PCOk cmds)
    (hlt : cmds.length < 16) (hx : CmdOk x) : PCOk (cmds ++ [x]) := by
  obtain ⟨_, h2⟩ := h
  refine ⟨?_, ?_⟩
  · simp only [List.length_append, List.length_cons, List.length_nil]
    omega
  · intro y hy
    rcases List.mem_append.mp hy with h | h
    · exact h2 y h
    · rw [List.mem_singleton.mp h]; exact hx

/-- Setting a redirection field with a bounded filename preserves the
limits. -/
theorem cmdOk_setInput (cur : Cmd) (f : Str) (k : Nat) (hc : CmdOk cur)
    (hf : f.length ≤ 1023) :
    CmdOk { cur with input_file := some f, input_fd := k } := by
  obtain ⟨h1, h2, h3, h4, h5⟩ := hc
  exact ⟨h1, h2, fun g hg => by cases hg; exact hf, h4, h5⟩

/-- Setting the truncate-output field preserves the limits. -/
theorem cmdOk_setOutput (cur : Cmd) (f : Str) (k : Nat) (hc : CmdOk cur)
    (hf : f.length ≤ 1023) :
    CmdOk { cur with output_file := some f, output_fd := k } := by
  obtain ⟨h1, h2, h3, h4, h5⟩ := hc
  exact ⟨h1, h2, h3, fun g hg => by cases hg; exact hf, h5⟩

/-- Setting the append-output field preserves the limits. -/
theorem cmdOk_setAppend (cur : Cmd) (f : Str) (k : Nat) (hc : CmdOk cur)
    (hf : f.length ≤ 1023) :
    CmdOk { cur with append_file := some f, output_fd := k } := by
  obtain ⟨h1, h2, h3, h4, h5⟩ := hc
  exact ⟨h1, h2, h3, h4, fun g hg => by cases hg; exact hf⟩

/-- The redirection step leaves no more input than it was given. -/
theorem redirStep_rem_le (c : Char) (rest buff : Str) (inS inD : Bool) (cur : Cmd) :
    (redirStep c rest buff inS inD cur).1.length ≤ rest.length := by
  unfold redirStep redirScan
  refine Nat.le_trans (scanFilename_rem_le _ inS inD []) ?_
  refine Nat.le_trans (dropWhile_len_le _ _) ?_
  split_ifs
  · exact tail_len_le rest
  · exact Nat.le_refl _

/-- Handling the pending token preserves the per-command limits. -/
theorem redirCur0_cmdOk (cur : Cmd) (buff : Str) (hc : CmdOk cur)
    (hb : buff.length ≤ 1023) : CmdOk (redirCur0 cur buff) := by
  unfold redirCur0
  split_ifs
  · exact cmdOk_flushWord cur buff hc hb
  · exact hc

/-- Assigning a bounded filename preserves the per-command limits. -/
theorem redirTarget_cmdOk (c : Char) (isApp : Bool) (cur0 : Cmd) (fname : Str)
    (fdSpec : Option Nat) (hc : CmdOk cur0) (hf : fname.length ≤ 1023) :
    CmdOk (redirTarget c isApp cur0 fname fdSpec) := by
  unfold redirTarget
  split_ifs
  · exact cmdOk_setInput _ _ _ hc hf
  · exact cmdOk_setAppend _ _ _ hc hf
  · exact cmdOk_setOutput _ _ _ hc hf

/-- The filename the redirection scan yields is bounded. -/
theorem redirScan_name_le (c : Char) (rest : Str) (inS inD : Bool) :
    (redirScan c rest inS inD).1.length ≤ 1023 := by
  unfold redirScan
  exact scanFilename_name_le _ inS inD [] (by simp)

/-- The redirection step preserves the per-command limits. -/
theorem redirStep_cmdOk (c : Char) (rest buff : Str) (inS inD : Bool) (cur : Cmd)
    (hc : CmdOk cur) (hb : buff.length ≤ 1023) :
    CmdOk (redirStep c rest buff inS inD cur).2.2.2 := by
  unfold redirStep
  exact redirTarget_cmdOk c _ _ _ _ (redirCur0_cmdOk cur buff hc hb)
    (redirScan_name_le c rest inS inD)

/-- Invariant proof for the scanning loop: whatever the input and fuel,
the accumulated limits are preserved. -/
theorem pcLoop_ok :
    ∀ (fuel : Nat) (input buff : Str) (inS inD : Bool) (cur : Cmd) (cmds : List Cmd),
      buff.length ≤ 1023 → CmdOk cur → PCOk cmds →
      PCOk (pcLoop fuel input buff inS inD cur cmds) := by
  intro fuel
  induction fuel with
  | zero => intro input buff inS inD cur cmds _ _ hl; exact hl
  | succ fuel ih =>
    intro input buff inS inD cur cmds hb hc hl
    cases input with
    | nil =>
      simp only [pcLoop]
      split_ifs with hlt
      · exact pcOk_append cmds _ hl hlt (cmdOk_flushWord cur buff hc hb)
      · exact hl
    | cons c rest =>
      simp only [pcLoop]
      split_ifs with h1 h2 h3 h4 h5 h6
      · exact ih _ _ _ _ _ _ (appendBuff_le buff _ hb) hc hl
      · exact ih _ _ _ _ _ _ hb hc hl
      · exact ih _ _ _ _ _ _ hb hc hl
      · exact ih _ _ _ _ _ _ (by simp) cmdOk_init
          (pcOk_append cmds _ hl h5 (cmdOk_flushWord cur buff hc hb))
      · exact hl
      · exact ih _ _ _ _ _ _ (by simp)
          (redirStep_cmdOk c rest buff inS inD cur hc hb) hl
      · exact ih _ _ _ _ _ _ (by simp) (cmdOk_flushWord cur buff hc hb) hl
      · exact ih _ _ _ _ _ _ (appendBuff_le buff c hb) hc hl

/-- The fuel is irrelevant as long as it exceeds the remaining input
length: every step consumes at least one character. -/
theorem pcLoop_fuel_congr :
    ∀ (f1 f2 : Nat) (input buff : Str) (inS inD : Bool) (cur : Cmd) (cmds : List Cmd),
      input.length < f1 → input.length < f2 →
      pcLoop f1 input buff inS inD cur cmds = pcLoop f2 input buff inS inD cur cmds := by
  intro f1
  induction f1 with
  | zero => intro f2 input _ _ _ _ _ h1 _; exact absurd h1 (by omega)
  | succ f1 ih =>
    intro f2 input buff inS inD cur cmds h1 h2
    cases f2 with
    | zero => exact absurd h2 (by omega)
    | succ f2 =>
      cases input with
      | nil => rfl
      | cons c rest =>
        have hrestlt1 : rest.length < f1 := by simpa using h1
        have hrestlt2 : rest.length < f2 := by simpa using h2
        have htail1 : rest.tail.length < f1 :=
          Nat.lt_of_le_of_lt (tail_len_le rest) hrestlt1
        have htail2 : rest.tail.length < f2 :=
          Nat.lt_of_le_of_lt (tail_len_le rest) hrestlt2
        have hredir1 : (redirStep c rest buff inS inD cur).1.length < f1 :=
          Nat.lt_of_le_of_lt (redirStep_rem_le c rest buff inS inD cur) hrestlt1
        have hredir2 : (redirStep c rest buff inS inD cur).1.length < f2 :=
          Nat.lt_of_le_of_lt (redirStep_rem_le c rest buff inS inD cur) hrestlt2
        simp only [pcLoop]
        split_ifs
        · exact ih f2 _ _ _ _ _ _ htail1 htail2
        · exact ih f2 _ _ _ _ _ _ hrestlt1 hrestlt2
        · exact ih f2 _ _ _ _ _ _ hrestlt1 hrestlt2
        · exact ih f2 _ _ _ _ _ _ hrestlt1 hrestlt2
        · rfl
        · exact ih f2 _ _ _ _ _ _ hredir1 hredir2
        · exact ih f2 _ _ _ _ _ _ hrestlt1 hrestlt2
        · exact ih f2 _ _ _ _ _ _ hrestlt1 hrestlt2

set_option maxRecDepth 8000 in
set_option maxHeartbeats 2000000 in
/-- Claim C10: `parse_commands` silently enforces hard limits — at most 16
commands, at most 63 argv words per command, and no word or redirection
filename longer than 1023 bytes — with no error channel in its result.
Concretely, a 17-command input yields exactly 16 commands (the 17th is
discarded), and a 64-word command stores exactly 63 words. -/
theorem parse_commands_limits :
    (∀ input : Str,
        (parse_commands input).length ≤ 16
        ∧ ∀ x ∈ parse_commands input,
            x.argv.length ≤ 63
            ∧ (∀ w ∈ x.argv, w.length ≤ 1023)
            ∧ (∀ f, x.input_file = some f → f.length ≤ 1023)
            ∧ (∀ f, x.output_file = some f → f.length ≤ 1023)
            ∧ (∀ f, x.append_file = some f → f.length ≤ 1023))
    ∧ (parse_commands (chars "a|b|c|d|e|f|g|h|i|j|k|l|m|n|o|p|q")).length = 16
    ∧ ((parse_commands (chars
          "w w w w w w w w w w w w w w w w w w w w w w w w w w w w w w w w w w w w w w w w w w w w w w w w w w w w w w w w w w w w w w w w")).headD
        Cmd.init).argv.length = 63 := by
  refine ⟨?_, by decide, by decide⟩
  intro input
  have h := pcLoop_ok (input.length + 1) input [] false false Cmd.init []
    (by simp) cmdOk_init ⟨by simp, by simp⟩
  exact ⟨h.1, fun x hx => h.2 x hx⟩

end Thrash
